import Mathlib

set_option maxHeartbeats 1000000

/-!
Shallow embedding of the attack-tree analysis module
(`docs/security/attack-trees-analysis.py`): the AND/OR attack-tree data
model, the best-path search (`_find_path` / `_path_score`), leaf
enumeration, dict serialization (`to_dict`) and the Mermaid exporter.
Python floats appear only as copied data (`time_hours`), embedded as `ℚ`;
integer enum ordinals are embedded as `Nat`.
-/

namespace AttackTrees

inductive NodeType where
  | OR
  | AND
  | LEAF
deriving DecidableEq

def NodeType.value : NodeType → String
  | .OR => "or"
  | .AND => "and"
  | .LEAF => "leaf"

inductive Difficulty where
  | TRIVIAL
  | LOW
  | MEDIUM
  | HIGH
  | EXPERT
deriving DecidableEq

def Difficulty.value : Difficulty → Nat
  | .TRIVIAL => 1
  | .LOW => 2
  | .MEDIUM => 3
  | .HIGH => 4
  | .EXPERT => 5

def Difficulty.name : Difficulty → String
  | .TRIVIAL => "TRIVIAL"
  | .LOW => "LOW"
  | .MEDIUM => "MEDIUM"
  | .HIGH => "HIGH"
  | .EXPERT => "EXPERT"

inductive Cost where
  | FREE
  | LOW
  | MEDIUM
  | HIGH
  | VERY_HIGH
deriving DecidableEq

def Cost.value : Cost → Nat
  | .FREE => 0
  | .LOW => 1
  | .MEDIUM => 2
  | .HIGH => 3
  | .VERY_HIGH => 4

def Cost.name : Cost → String
  | .FREE => "FREE"
  | .LOW => "LOW"
  | .MEDIUM => "MEDIUM"
  | .HIGH => "HIGH"
  | .VERY_HIGH => "VERY_HIGH"

inductive DetectionRisk where
  | NONE
  | LOW
  | MEDIUM
  | HIGH
  | CERTAIN
deriving DecidableEq

def DetectionRisk.value : DetectionRisk → Nat
  | .NONE => 0
  | .LOW => 1
  | .MEDIUM => 2
  | .HIGH => 3
  | .CERTAIN => 4

def DetectionRisk.name : DetectionRisk → String
  | .NONE => "NONE"
  | .LOW => "LOW"
  | .MEDIUM => "MEDIUM"
  | .HIGH => "HIGH"
  | .CERTAIN => "CERTAIN"

structure AttackAttributes where
  difficulty : Difficulty := Difficulty.MEDIUM
  cost : Cost := Cost.MEDIUM
  detection_risk : DetectionRisk := DetectionRisk.MEDIUM
  time_hours : ℚ := 8
  requires_insider : Bool := false
  requires_physical : Bool := false
deriving DecidableEq

/-- `AttackNode` from the source: id, name, description, node_type,
attributes, children, mitigations, cve_refs, file_refs. A nested
inductive because `children` holds further nodes. -/
inductive AttackNode where
  | mk (id name description : String) (node_type : NodeType)
      (attributes : AttackAttributes) (children : List AttackNode)
      (mitigations cve_refs file_refs : List String)

def AttackNode.id : AttackNode → String
  | .mk v _ _ _ _ _ _ _ _ => v

def AttackNode.name : AttackNode → String
  | .mk _ v _ _ _ _ _ _ _ => v

def AttackNode.description : AttackNode → String
  | .mk _ _ v _ _ _ _ _ _ => v

def AttackNode.node_type : AttackNode → NodeType
  | .mk _ _ _ v _ _ _ _ _ => v

def AttackNode.attributes : AttackNode → AttackAttributes
  | .mk _ _ _ _ v _ _ _ _ => v

def AttackNode.children : AttackNode → List AttackNode
  | .mk _ _ _ _ _ v _ _ _ => v

def AttackNode.mitigations : AttackNode → List String
  | .mk _ _ _ _ _ _ v _ _ => v

def AttackNode.cve_refs : AttackNode → List String
  | .mk _ _ _ _ _ _ _ v _ => v

def AttackNode.file_refs : AttackNode → List String
  | .mk _ _ _ _ _ _ _ _ v => v

/-- `AttackTree` from the source. -/
structure AttackTree where
  name : String
  description : String
  root : AttackNode
  version : String := "1.0"
  severity : String := "Medium"

/-- `AttackTree._path_score`: sum of the chosen metric attribute over the
LEAF nodes of the path; unknown metric strings score 0. -/
def path_score (path : List AttackNode) (metric : String) : Nat :=
  if metric = "difficulty" then
    ((path.filter fun n => n.node_type = NodeType.LEAF).map
      fun n => n.attributes.difficulty.value).sum
  else if metric = "cost" then
    ((path.filter fun n => n.node_type = NodeType.LEAF).map
      fun n => n.attributes.cost.value).sum
  else if metric = "detection" then
    ((path.filter fun n => n.node_type = NodeType.LEAF).map
      fun n => n.attributes.detection_risk.value).sum
  else 0

/-- One iteration of the OR loop in `_find_path`: the running best is
`none` while `best_path is None` (score `inf`); a candidate replaces the
best exactly when its score is strictly smaller. -/
def or_step (minimize : String) (acc : Option (List AttackNode × Nat))
    (child_path : List AttackNode) : Option (List AttackNode × Nat) :=
  let score := path_score child_path minimize
  match acc with
  | none => some (child_path, score)
  | some (_, best_score) =>
      if score < best_score then some (child_path, score) else acc

mutual

/-- `AttackTree._find_path`: LEAF or childless node gives `[node]`; an OR
node prepends itself to the strictly-best child path (`best_path or []`
embedded as `Option.getD []`); any other node (AND) prepends itself to
the concatenation of all child paths. -/
def find_path : AttackNode → String → List AttackNode
  | node@(.mk _ _ _ t _ ch _ _ _), minimize =>
    if t = NodeType.LEAF then [node]
    else if ch.isEmpty then [node]
    else if t = NodeType.OR then
      node ::
        ((((child_paths ch minimize).foldl (or_step minimize) none).map
          Prod.fst).getD [])
    else
      node :: (child_paths ch minimize).flatten

/-- The recursive calls `self._find_path(child, minimize)` made for each
child, in child order. -/
def child_paths : List AttackNode → String → List (List AttackNode)
  | [], _ => []
  | c :: rest, minimize => find_path c minimize :: child_paths rest minimize

end

/-- `AttackTree.find_easiest_path`. -/
def AttackTree.find_easiest_path (t : AttackTree) : List AttackNode :=
  find_path t.root "difficulty"

/-- `AttackTree.find_cheapest_path`. -/
def AttackTree.find_cheapest_path (t : AttackTree) : List AttackNode :=
  find_path t.root "cost"

/-- `AttackTree.find_stealthiest_path`. -/
def AttackTree.find_stealthiest_path (t : AttackTree) : List AttackNode :=
  find_path t.root "detection"

mutual

/-- `AttackTree._collect_leaves`: appends the node to the accumulator when
it is a LEAF, then recurses into the children in stored order. The Python
list mutation is embedded as explicit accumulator passing. -/
def collect_leaves : AttackNode → List AttackNode → List AttackNode
  | node@(.mk _ _ _ t _ ch _ _ _), leaves =>
    collect_leaves_list ch
      (if t = NodeType.LEAF then leaves ++ [node] else leaves)

/-- The `for child in node.children` loop of `_collect_leaves`. -/
def collect_leaves_list : List AttackNode → List AttackNode → List AttackNode
  | [], leaves => leaves
  | c :: rest, leaves => collect_leaves_list rest (collect_leaves c leaves)

end

/-- `AttackTree.get_all_leaf_attacks`. -/
def AttackTree.get_all_leaf_attacks (t : AttackTree) : List AttackNode :=
  collect_leaves t.root []

/-- `AttackTree.get_unmitigated_attacks`: leaves whose `mitigations` is
empty (Python falsiness of the empty list). -/
def AttackTree.get_unmitigated_attacks (t : AttackTree) : List AttackNode :=
  t.get_all_leaf_attacks.filter fun n => n.mitigations.isEmpty

/-- The `attributes` sub-dictionary emitted by `_node_to_dict`: enum names
(not ordinals) plus the raw `time_hours`. -/
structure AttrsDict where
  difficulty : String
  cost : String
  detection_risk : String
  time_hours : ℚ
deriving DecidableEq

/-- The dictionary emitted per node by `_node_to_dict`. -/
structure NodeDict where
  id : String
  name : String
  description : String
  type : String
  attributes : AttrsDict
  mitigations : List String
  file_refs : List String
  children : List NodeDict

mutual

/-- `AttackTree._node_to_dict`. -/
def node_to_dict : AttackNode → NodeDict
  | .mk i nm ds t a ch mit _ fr =>
    { id := i, name := nm, description := ds, type := t.value,
      attributes :=
        { difficulty := a.difficulty.name, cost := a.cost.name,
          detection_risk := a.detection_risk.name,
          time_hours := a.time_hours },
      mitigations := mit, file_refs := fr,
      children := node_list_to_dict ch }

/-- The `[self._node_to_dict(c) for c in node.children]` comprehension. -/
def node_list_to_dict : List AttackNode → List NodeDict
  | [] => []
  | c :: rest => node_to_dict c :: node_list_to_dict rest

end

/-- The dictionary emitted by `AttackTree.to_dict`. -/
structure TreeDict where
  name : String
  description : String
  severity : String
  version : String
  root : NodeDict

/-- `AttackTree.to_dict`. -/
def AttackTree.to_dict (t : AttackTree) : TreeDict :=
  { name := t.name, description := t.description, severity := t.severity,
    version := t.version, root := node_to_dict t.root }

/-- The Mermaid node shapes used by `_export_node`: OR nodes get the
rounded `(('name')` shape, AND and LEAF nodes the `['name']` rectangle. -/
inductive MShape where
  | rounded
  | rect
deriving DecidableEq

/-- One emitted line of the Mermaid exporter. The claim-relevant content
of each formatted string (identifiers, shape kind, node name, connector
string, style string) is carried by the constructor fields. -/
inductive MLine where
  | header (text : String)
  | style (node_id style_text : String)
  | node (node_id : String) (shape : MShape) (node_name : String)
  | edge (parent_id connector node_id : String)
  | classDef (text : String)
deriving DecidableEq

/-- `MermaidExporter` mutable state: `_lines`, `_node_count`,
`_node_ids` (insertion-ordered association list embedding the dict). -/
structure ExporterState where
  lines : List MLine
  node_count : Nat
  node_ids : List (String × String)

/-- `MermaidExporter._get_leaf_style`: difficulty-indexed color looked up
with default `fill:#gray`, overridden by the fixed mitigated combination
when `mitigations` is non-empty (Python truthiness of `has_mitigation`). -/
def get_leaf_style (node : AttackNode) : String :=
  let colors : List (Difficulty × String) :=
    [(Difficulty.TRIVIAL, "fill:#ff6b6b,stroke:#c92a2a,stroke-width:3px"),
     (Difficulty.LOW, "fill:#ffa06b,stroke:#e67700,stroke-width:2px"),
     (Difficulty.MEDIUM, "fill:#ffd93d,stroke:#fab005,stroke-width:2px"),
     (Difficulty.HIGH, "fill:#6bcb77,stroke:#2f9e44,stroke-width:2px"),
     (Difficulty.EXPERT, "fill:#4d96ff,stroke:#1971c2,stroke-width:2px")]
  let color := (colors.lookup node.attributes.difficulty).getD "fill:#gray"
  let has_mitigation :=
    if node.mitigations.isEmpty then ""
    else "stroke:#51cf66,stroke-width:3px"
  if has_mitigation = "" then color else "fill:#d3f9d8," ++ has_mitigation

/-- The memoized identifier assignment at the top of `_export_node`
(source lines 197-202): a key already in `_node_ids` reuses its
identifier; otherwise a fresh `N{count}` identifier is minted, the
counter incremented and the pair recorded. -/
def assign_id (key : String) (st : ExporterState) :
    String × ExporterState :=
  match st.node_ids.lookup key with
  | some v => (v, st)
  | none =>
    let v := "N" ++ toString st.node_count
    (v, { st with node_count := st.node_count + 1,
                  node_ids := st.node_ids ++ [(key, v)] })

/-- The shape/style lines of one `_export_node` visit (source lines
204-214): OR nodes get the rounded shape, AND nodes the rectangle, LEAF
nodes a style directive followed by the rectangle. -/
def shape_lines (node : AttackNode) (node_id : String) : List MLine :=
  if node.node_type = NodeType.OR then
    [MLine.node node_id MShape.rounded node.name]
  else if node.node_type = NodeType.AND then
    [MLine.node node_id MShape.rect node.name]
  else
    [MLine.style node_id (get_leaf_style node),
     MLine.node node_id MShape.rect node.name]

/-- The edge line of one `_export_node` visit (source lines 216-218):
emitted only when `parent_id` is truthy (non-`None`, non-empty), with the
double-line connector exactly when the visited node's own type is AND. -/
def edge_lines (t : NodeType) (parent_id : Option String)
    (node_id : String) : List MLine :=
  match parent_id with
  | none => []
  | some pid =>
    if pid = "" then []
    else [MLine.edge pid (if t ≠ NodeType.AND then "-->" else "==>") node_id]

mutual

/-- `MermaidExporter._export_node`: memoized identifier assignment, style
line for leaves, one shape line, one edge line when `parent_id` is truthy,
then the children in order. Returns the node's diagram identifier together
with the updated state. -/
def export_node : AttackNode → Option String → ExporterState →
    String × ExporterState
  | node@(.mk _ _ _ t _ ch _ _ _), parent_id, st =>
    let assigned := assign_id node.id st
    let node_id := assigned.1
    let st1 := assigned.2
    let visit := shape_lines node node_id ++ edge_lines t parent_id node_id
    let st2 := { st1 with lines := st1.lines ++ visit }
    (node_id, export_children ch node_id st2)

/-- The `for child in node.children` loop of `_export_node` (the returned
identifier of each child call is discarded, as in the source). -/
def export_children : List AttackNode → String → ExporterState →
    ExporterState
  | [], _, st => st
  | c :: rest, node_id, st =>
    export_children rest node_id (export_node c (some node_id) st).2

end

/-- `MermaidExporter._add_legend`: the fixed block of five classDef
lines. -/
def add_legend (st : ExporterState) : ExporterState :=
  { st with lines := st.lines ++
      [MLine.classDef "trivial fill:#ff6b6b,stroke:#c92a2a,stroke-width:3px",
       MLine.classDef "low fill:#ffa06b,stroke:#e67700,stroke-width:2px",
       MLine.classDef "medium fill:#ffd93d,stroke:#fab005,stroke-width:2px",
       MLine.classDef "high fill:#6bcb77,stroke:#2f9e44,stroke-width:2px",
       MLine.classDef "expert fill:#4d96ff,stroke:#1971c2,stroke-width:2px"]}

/-- `MermaidExporter.export` (renamed: `export` is a Lean keyword):
header, recursive walk from the root with no parent, then the legend. -/
def export_diagram (t : AttackTree) : List MLine :=
  (add_legend
    (export_node t.root none
      { lines := [MLine.header "flowchart TD"], node_count := 0,
        node_ids := [] }).2).lines

mutual

/-- Depth-first pre-order traversal of a node: the node itself, then the
traversals of its children in stored order. -/
def preorder : AttackNode → List AttackNode
  | node@(.mk _ _ _ _ _ ch _ _ _) => node :: preorder_list ch

/-- Pre-order traversal of a list of sibling subtrees. -/
def preorder_list : List AttackNode → List AttackNode
  | [] => []
  | c :: rest => preorder c ++ preorder_list rest

end

/-- Total node count of a subtree. -/
def tree_size (n : AttackNode) : Nat := (preorder n).length

/-- The `id` fields of a subtree in pre-order. -/
def tree_ids (n : AttackNode) : List String :=
  (preorder n).map AttackNode.id

mutual

/-- Pre-order walk of the serialized dictionary structure, following the
nested `children` lists from an entry. -/
def dict_preorder : NodeDict → List NodeDict
  | d@(.mk _ _ _ _ _ _ _ ch) => d :: dict_preorder_list ch

/-- Pre-order walk of a list of sibling dictionary entries. -/
def dict_preorder_list : List NodeDict → List NodeDict
  | [] => []
  | c :: rest => dict_preorder c ++ dict_preorder_list rest

end

def MLine.is_node_line : MLine → Bool
  | .node _ _ _ => true
  | _ => false

def MLine.is_edge_line : MLine → Bool
  | .edge _ _ _ => true
  | _ => false

/-- Number of node-declaration lines. -/
def node_line_count (ls : List MLine) : Nat :=
  (ls.filter fun l => l.is_node_line).length

/-- Number of edge lines. -/
def edge_line_count (ls : List MLine) : Nat :=
  (ls.filter fun l => l.is_edge_line).length

/-- Python truthiness of the `parent_id` argument of `_export_node`. -/
def pid_truthy : Option String → Bool
  | none => false
  | some s => s ≠ ""

/-- Default attributes, as produced by the `AttackAttributes` dataclass
field defaults. -/
def default_attributes : AttackAttributes :=
  AttackAttributes.mk Difficulty.MEDIUM Cost.MEDIUM DetectionRisk.MEDIUM
    8 false false

/-- Concrete test leaf mirroring the spec example: difficulty TRIVIAL,
cost LOW, no mitigations. -/
def ex_leaf_a : AttackNode :=
  .mk "A" "Leaf A" "trivial attack step" NodeType.LEAF
    (AttackAttributes.mk Difficulty.TRIVIAL Cost.LOW DetectionRisk.MEDIUM
      2 false false) [] [] [] []

/-- Concrete test leaf mirroring the spec example: difficulty HIGH,
cost MEDIUM, one mitigation. -/
def ex_leaf_b : AttackNode :=
  .mk "B" "Leaf B" "hard attack step" NodeType.LEAF
    (AttackAttributes.mk Difficulty.HIGH Cost.MEDIUM DetectionRisk.LOW
      40 false false) [] ["mitigate b"] [] []

/-- Concrete OR root over the two test leaves (spec §8 example). -/
def ex_or_root : AttackNode :=
  .mk "R" "Root" "or goal" NodeType.OR default_attributes
    [ex_leaf_a, ex_leaf_b] [] [] []

/-- Concrete AND root over the two test leaves (spec §8 example). -/
def ex_and_root : AttackNode :=
  .mk "R2" "Root2" "and goal" NodeType.AND default_attributes
    [ex_leaf_a, ex_leaf_b] [] [] []

/-- Childless AND node used to exercise the edge-connector choice. -/
def ex_and_child : AttackNode :=
  .mk "C" "Child" "and child" NodeType.AND default_attributes [] [] [] []

/-- OR parent with a single AND child: the edge into the child goes out
of an OR node. -/
def ex_or_parent : AttackNode :=
  .mk "P" "Parent" "or parent" NodeType.OR default_attributes
    [ex_and_child] [] [] []

/-- A tree built over the OR example root. -/
def ex_or_tree : AttackTree :=
  { name := "example", description := "example tree", root := ex_or_root,
    version := "1.0", severity := "Medium" }

/-- The empty initial exporter state (as in `MermaidExporter.__init__`,
before `export` pushes the header line). -/
def empty_state : ExporterState :=
  { lines := [], node_count := 0, node_ids := [] }

/-- A second leaf carrying the same `id` as `ex_leaf_a`. -/
def ex_dup_leaf : AttackNode :=
  .mk "A" "Leaf A2" "duplicate id leaf" NodeType.LEAF default_attributes
    [] [] [] []

theorem sizeOf_lt_of_mem_children {c n : AttackNode}
    (hc : c ∈ n.children) : sizeOf c < sizeOf n := by
  cases n with
  | mk i nm d t a ch mit cv fr =>
    simp only [AttackNode.children] at hc
    have h := List.sizeOf_lt_of_mem hc
    simp only [AttackNode.mk.sizeOf_spec]
    omega

theorem AttackNode.induction_on {motive : AttackNode → Prop}
    (h : ∀ n : AttackNode, (∀ c ∈ n.children, motive c) → motive n)
    (n : AttackNode) : motive n := by
  have key : ∀ k, ∀ m : AttackNode, sizeOf m < k → motive m := by
    intro k
    induction k with
    | zero => intro m hm; omega
    | succ k ih =>
      intro m hm
      apply h
      intro c hc
      exact ih c (by have := sizeOf_lt_of_mem_children hc; omega)
  exact key (sizeOf n + 1) n (by omega)

theorem child_paths_eq_map (l : List AttackNode) (m : String) :
    child_paths l m = l.map (fun c => find_path c m) := by
  induction l with
  | nil => simp [child_paths]
  | cons c rest ih => simp [child_paths, ih]

theorem find_path_eq_cons (n : AttackNode) (m : String) :
    ∃ rest, find_path n m = n :: rest := by
  cases n with
  | mk i nm d t a ch mit cv fr =>
    simp only [find_path]
    split
    · exact ⟨[], rfl⟩
    · split
      · exact ⟨[], rfl⟩
      · split
        · exact ⟨_, rfl⟩
        · exact ⟨_, rfl⟩

theorem find_path_ne_nil (n : AttackNode) (m : String) :
    find_path n m ≠ [] := by
  obtain ⟨rest, h⟩ := find_path_eq_cons n m
  simp [h]

theorem path_score_append (p q : List AttackNode) (m : String) :
    path_score (p ++ q) m = path_score p m + path_score q m := by
  unfold path_score
  split
  · simp
  · split
    · simp
    · split
      · simp
      · simp

theorem path_score_cons_not_leaf (n : AttackNode) (p : List AttackNode)
    (m : String) (h : n.node_type ≠ NodeType.LEAF) :
    path_score (n :: p) m = path_score p m := by
  unfold path_score
  split
  · simp [List.filter_cons, h]
  · split
    · simp [List.filter_cons, h]
    · split
      · simp [List.filter_cons, h]
      · rfl

theorem path_score_flatten (L : List (List AttackNode)) (m : String) :
    path_score L.flatten m = (L.map (fun p => path_score p m)).sum := by
  induction L with
  | nil =>
    simp [path_score]
  | cons p rest ih => simp [path_score_append, ih]

theorem foldl_or_step_char (m : String) (ps : List (List AttackNode)) :
    ∀ bp : List AttackNode,
    (ps.foldl (or_step m) (some (bp, path_score bp m)) =
        some (bp, path_score bp m) ∧
      ∀ q ∈ ps, path_score bp m ≤ path_score q m)
    ∨ (∃ i, ∃ hi : i < ps.length,
        ps.foldl (or_step m) (some (bp, path_score bp m)) =
          some (ps[i], path_score ps[i] m) ∧
        path_score ps[i] m < path_score bp m ∧
        (∀ j, ∀ hj : j < ps.length,
          path_score ps[i] m ≤ path_score ps[j] m) ∧
        (∀ j, j < i → ∀ hj : j < ps.length,
          path_score ps[i] m < path_score ps[j] m)) := by
  induction ps with
  | nil =>
    intro bp
    left
    simp
  | cons q rest ih =>
    intro bp
    by_cases hq : path_score q m < path_score bp m
    · have hstep : (q :: rest).foldl (or_step m) (some (bp, path_score bp m)) =
          rest.foldl (or_step m) (some (q, path_score q m)) := by
        simp [or_step, hq]
      rcases ih q with ⟨heq, hle⟩ | ⟨i, hi, heq, hlt, hmin, hfirst⟩
      · right
        refine ⟨0, by simp, ?_, ?_, ?_, ?_⟩
        · rw [hstep, heq]
          simp
        · simpa using hq
        · intro j hj
          match j with
          | 0 => simp
          | j + 1 =>
            simp only [List.getElem_cons_succ, List.getElem_cons_zero]
            exact hle _ (by simp)
        · intro j hj
          omega
      · right
        have hi2 : i + 1 < (q :: rest).length := by
          simpa using Nat.succ_lt_succ hi
        refine ⟨i + 1, hi2, ?_, ?_, ?_, ?_⟩
        · rw [hstep, heq]
          simp
        · simp only [List.getElem_cons_succ]
          exact lt_trans hlt hq
        · intro j hj
          match j with
          | 0 =>
            simp only [List.getElem_cons_succ, List.getElem_cons_zero]
            exact le_of_lt hlt
          | j + 1 =>
            simp only [List.getElem_cons_succ]
            exact hmin j (by simp only [List.length_cons] at hj; omega)
        · intro j hj hj2
          match j with
          | 0 =>
            simp only [List.getElem_cons_succ, List.getElem_cons_zero]
            exact hlt
          | j + 1 =>
            simp only [List.getElem_cons_succ]
            exact hfirst j (by omega) (by simp only [List.length_cons] at hj2; omega)
    · have hstep : (q :: rest).foldl (or_step m) (some (bp, path_score bp m)) =
          rest.foldl (or_step m) (some (bp, path_score bp m)) := by
        simp [or_step, hq]
      rcases ih bp with ⟨heq, hle⟩ | ⟨i, hi, heq, hlt, hmin, hfirst⟩
      · left
        constructor
        · rw [hstep, heq]
        · intro p hp
          rcases List.mem_cons.mp hp with h | h
          · subst h
            omega
          · exact hle p h
      · right
        have hi2 : i + 1 < (q :: rest).length := by
          simpa using Nat.succ_lt_succ hi
        refine ⟨i + 1, hi2, ?_, ?_, ?_, ?_⟩
        · rw [hstep, heq]
          simp
        · simp only [List.getElem_cons_succ]
          exact hlt
        · intro j hj
          match j with
          | 0 =>
            simp only [List.getElem_cons_succ, List.getElem_cons_zero]
            omega
          | j + 1 =>
            simp only [List.getElem_cons_succ]
            exact hmin j (by simp only [List.length_cons] at hj; omega)
        · intro j hj hj2
          match j with
          | 0 =>
            simp only [List.getElem_cons_succ, List.getElem_cons_zero]
            omega
          | j + 1 =>
            simp only [List.getElem_cons_succ]
            exact hfirst j (by omega) (by simp only [List.length_cons] at hj2; omega)

theorem child_paths_length (l : List AttackNode) (m : String) :
    (child_paths l m).length = l.length := by
  simp [child_paths_eq_map]

theorem child_paths_getElem (l : List AttackNode) (m : String) (j : Nat)
    (hj : j < l.length) (hj2 : j < (child_paths l m).length) :
    (child_paths l m)[j] = find_path l[j] m := by
  simp [child_paths_eq_map]

/-- Full characterization of the OR loop of `_find_path` on a non-empty
children list: the fold ends at `some`, holding the path of the first
child whose score is minimal over all children. -/
theorem or_fold_spec (m : String) (cs : List AttackNode) (hcs : cs ≠ []) :
    ∃ i, ∃ hi : i < cs.length,
      (child_paths cs m).foldl (or_step m) none =
        some (find_path cs[i] m, path_score (find_path cs[i] m) m) ∧
      (∀ j, ∀ hj : j < cs.length,
        path_score (find_path cs[i] m) m ≤
          path_score (find_path cs[j] m) m) ∧
      (∀ j, j < i → ∀ hj : j < cs.length,
        path_score (find_path cs[i] m) m <
          path_score (find_path cs[j] m) m) := by
  match cs, hcs with
  | c :: rest, _ =>
    have hstep : (child_paths (c :: rest) m).foldl (or_step m) none =
        (child_paths rest m).foldl (or_step m)
          (some (find_path c m, path_score (find_path c m) m)) := by
      simp [child_paths, or_step]
    rcases foldl_or_step_char m (child_paths rest m) (find_path c m) with
      ⟨heq, hle⟩ | ⟨i, hi, heq, hlt, hmin, hfirst⟩
    · refine ⟨0, by simp, ?_, ?_, ?_⟩
      · rw [hstep, heq]
        simp
      · intro j hj
        match j with
        | 0 => simp
        | j + 1 =>
          simp only [List.getElem_cons_succ, List.getElem_cons_zero]
          apply hle
          rw [child_paths_eq_map]
          simp only [List.length_cons] at hj
          exact List.mem_map_of_mem _ (List.getElem_mem (by omega))
      · intro j hj
        omega
    · have hi0 : i < rest.length := by
        have := child_paths_length rest m
        omega
      refine ⟨i + 1, by simp only [List.length_cons]; omega, ?_, ?_, ?_⟩
      · rw [hstep, heq]
        rw [child_paths_getElem rest m i hi0 hi]
        simp
      · intro j hj
        rw [child_paths_getElem rest m i hi0 hi] at hlt hmin
        match j with
        | 0 =>
          simp only [List.getElem_cons_succ, List.getElem_cons_zero]
          exact le_of_lt hlt
        | j + 1 =>
          simp only [List.getElem_cons_succ]
          simp only [List.length_cons] at hj
          have hj0 : j < rest.length := by omega
          have hj2 : j < (child_paths rest m).length := by
            rw [child_paths_length]
            omega
          have := hmin j hj2
          rwa [child_paths_getElem rest m j hj0 hj2] at this
      · intro j hjlt hj
        rw [child_paths_getElem rest m i hi0 hi] at hlt hfirst
        match j with
        | 0 =>
          simp only [List.getElem_cons_succ, List.getElem_cons_zero]
          exact hlt
        | j + 1 =>
          simp only [List.getElem_cons_succ]
          simp only [List.length_cons] at hj
          have hj0 : j < rest.length := by omega
          have hj2 : j < (child_paths rest m).length := by
            rw [child_paths_length]
            omega
          have := hfirst j (by omega) hj2
          rwa [child_paths_getElem rest m j hj0 hj2] at this

theorem find_path_or_eq (node : AttackNode) (m : String)
    (hOR : node.node_type = NodeType.OR) (hch : node.children ≠ []) :
    find_path node m = node ::
      ((((child_paths node.children m).foldl (or_step m) none).map
        Prod.fst).getD []) := by
  cases node with
  | mk i nm d t a ch mit cv fr =>
    simp only [AttackNode.node_type] at hOR
    simp only [AttackNode.children] at hch ⊢
    subst hOR
    simp [find_path, List.isEmpty_iff, hch]

theorem find_path_and_eq (node : AttackNode) (m : String)
    (hAND : node.node_type = NodeType.AND) (hch : node.children ≠ []) :
    find_path node m = node :: (child_paths node.children m).flatten := by
  cases node with
  | mk i nm d t a ch mit cv fr =>
    simp only [AttackNode.node_type] at hAND
    simp only [AttackNode.children] at hch ⊢
    subst hAND
    simp [find_path, List.isEmpty_iff, hch]

/-- C1: for an OR node with non-empty children, `_find_path` prepends the
node to the best child path: the winner is a child path of minimal score,
the OR node contributes 0 to the returned path's score, and every
earlier child's path has a strictly larger score (first child wins ties
because the comparison is strict `<`). -/
theorem find_path_or_claim (node : AttackNode) (m : String)
    (hOR : node.node_type = NodeType.OR) (hch : node.children ≠ []) :
    ∃ i, ∃ hi : i < node.children.length,
      find_path node m = node :: find_path node.children[i] m ∧
      path_score (find_path node m) m =
        path_score (find_path node.children[i] m) m ∧
      (∀ j, ∀ hj : j < node.children.length,
        path_score (find_path node m) m ≤
          path_score (find_path node.children[j] m) m) ∧
      (∀ j, j < i → ∀ hj : j < node.children.length,
        path_score (find_path node.children[i] m) m <
          path_score (find_path node.children[j] m) m) := by
  obtain ⟨i, hi, heq, hmin, hfirst⟩ := or_fold_spec m node.children hch
  have hpath : find_path node m = node :: find_path node.children[i] m := by
    rw [find_path_or_eq node m hOR hch, heq]
    simp
  have hnl : node.node_type ≠ NodeType.LEAF := by
    rw [hOR]
    decide
  have hscore : path_score (find_path node m) m =
      path_score (find_path node.children[i] m) m := by
    rw [hpath]
    exact path_score_cons_not_leaf _ _ _ hnl
  refine ⟨i, hi, hpath, hscore, ?_, hfirst⟩
  intro j hj
  rw [hscore]
  exact hmin j hj

/-- C10: in the OR branch the running best is always assigned before the
return (the first candidate beats the infinite initial score), so the
`best_path or []` fallback never supplies the empty list and the result
is the OR node followed by at least one more node. -/
theorem find_path_or_no_fallback (node : AttackNode) (m : String)
    (hOR : node.node_type = NodeType.OR) (hch : node.children ≠ []) :
    ∃ bp score,
      (child_paths node.children m).foldl (or_step m) none =
        some (bp, score) ∧
      find_path node m = node :: bp ∧ bp ≠ [] ∧
      2 ≤ (find_path node m).length := by
  obtain ⟨i, hi, heq, hmin, hfirst⟩ := or_fold_spec m node.children hch
  have hpath : find_path node m = node :: find_path node.children[i] m := by
    rw [find_path_or_eq node m hOR hch, heq]
    simp
  refine ⟨_, _, heq, hpath, find_path_ne_nil _ _, ?_⟩
  rw [hpath]
  have hne := find_path_ne_nil node.children[i] m
  have := List.length_pos.mpr hne
  simp only [List.length_cons]
  omega

/-- C2: for an AND node with non-empty children, `_find_path` prepends the
node to the concatenation of every child's best path in child order, and
the score of the result is the sum of the children's best-path scores
(the AND node contributes 0). -/
theorem find_path_and_claim (node : AttackNode) (m : String)
    (hAND : node.node_type = NodeType.AND) (hch : node.children ≠ []) :
    find_path node m =
      node :: (node.children.map (fun c => find_path c m)).flatten ∧
    path_score (find_path node m) m =
      (node.children.map (fun c => path_score (find_path c m) m)).sum := by
  have hpath := find_path_and_eq node m hAND hch
  rw [child_paths_eq_map] at hpath
  have hnl : node.node_type ≠ NodeType.LEAF := by
    rw [hAND]
    decide
  refine ⟨hpath, ?_⟩
  rw [hpath, path_score_cons_not_leaf _ _ _ hnl, path_score_flatten,
    List.map_map]
  rfl

/-- C3: a LEAF node, or any node with an empty children list, yields the
single-element path `[node]`; a LEAF scores its own attribute value for
each metric while a childless OR/AND node scores 0 for every metric,
because `_path_score` sums only over LEAF nodes. -/
theorem find_path_leaf_claim (node : AttackNode) (m : String)
    (h : node.node_type = NodeType.LEAF ∨ node.children = []) :
    find_path node m = [node] ∧
    (node.node_type = NodeType.LEAF →
      path_score [node] "difficulty" = node.attributes.difficulty.value ∧
      path_score [node] "cost" = node.attributes.cost.value ∧
      path_score [node] "detection" = node.attributes.detection_risk.value) ∧
    (node.node_type ≠ NodeType.LEAF → path_score [node] m = 0) := by
  refine ⟨?_, ?_, ?_⟩
  · cases node with
    | mk i nm d t a ch mit cv fr =>
      rcases h with h | h
      · simp only [AttackNode.node_type] at h
        subst h
        simp [find_path]
      · simp only [AttackNode.children] at h
        subst h
        simp [find_path]
  · intro hl
    refine ⟨?_, ?_, ?_⟩ <;> simp [path_score, hl]
  · intro hl
    unfold path_score
    split
    · simp [List.filter_cons, hl]
    · split
      · simp [List.filter_cons, hl]
      · split
        · simp [List.filter_cons, hl]
        · rfl

theorem node_list_to_dict_eq_map (l : List AttackNode) :
    node_list_to_dict l = l.map node_to_dict := by
  induction l with
  | nil => simp [node_list_to_dict]
  | cons c rest ih => simp [node_list_to_dict, ih]

theorem preorder_eq (n : AttackNode) :
    preorder n = n :: preorder_list n.children := by
  cases n with
  | mk i nm d t a ch mit cv fr => simp [preorder, AttackNode.children]

theorem collect_leaves_list_spec (l : List AttackNode)
    (IH : ∀ c ∈ l, ∀ acc, collect_leaves c acc =
      acc ++ (preorder c).filter (fun x => x.node_type = NodeType.LEAF)) :
    ∀ acc, collect_leaves_list l acc =
      acc ++ (preorder_list l).filter
        (fun x => x.node_type = NodeType.LEAF) := by
  induction l with
  | nil =>
    intro acc
    simp [collect_leaves_list, preorder_list]
  | cons c rest ih =>
    intro acc
    simp only [collect_leaves_list]
    rw [IH c (by simp)]
    rw [ih (fun x hx => IH x (by simp [hx]))]
    simp [preorder_list, List.filter_append]

theorem collect_leaves_spec (n : AttackNode) :
    ∀ acc, collect_leaves n acc =
      acc ++ (preorder n).filter (fun x => x.node_type = NodeType.LEAF) := by
  induction n using AttackNode.induction_on with
  | h n ih =>
    cases n with
    | mk i nm d t a ch mit cv fr =>
      intro acc
      simp only [collect_leaves]
      rw [collect_leaves_list_spec ch (fun c hc => ih c (by
        simpa [AttackNode.children] using hc))]
      rw [preorder_eq]
      simp only [AttackNode.children, List.filter_cons]
      by_cases ht : t = NodeType.LEAF
      · subst ht
        simp [AttackNode.node_type]
      · have : (AttackNode.mk i nm d t a ch mit cv fr).node_type ≠
            NodeType.LEAF := by simpa [AttackNode.node_type] using ht
        simp [AttackNode.node_type, ht]

/-- C5: `get_all_leaf_attacks` returns exactly the LEAF nodes reachable
from the root in depth-first pre-order, so leaf count plus non-leaf count
is the total node count, and `get_unmitigated_attacks` is exactly the
subsequence of those leaves with an empty mitigations list. -/
theorem leaf_enumeration_claim (t : AttackTree) :
    t.get_all_leaf_attacks =
      (preorder t.root).filter (fun x => x.node_type = NodeType.LEAF) ∧
    t.get_all_leaf_attacks.length +
      ((preorder t.root).filter
        (fun x => ¬x.node_type = NodeType.LEAF)).length =
      tree_size t.root ∧
    t.get_unmitigated_attacks =
      t.get_all_leaf_attacks.filter (fun n => n.mitigations = []) := by
  have h1 : t.get_all_leaf_attacks =
      (preorder t.root).filter (fun x => x.node_type = NodeType.LEAF) := by
    simpa [AttackTree.get_all_leaf_attacks] using collect_leaves_spec t.root []
  refine ⟨h1, ?_, ?_⟩
  · rw [h1]
    unfold tree_size
    have h := @List.length_eq_length_filter_add _ (preorder t.root)
      (fun x => decide (x.node_type = NodeType.LEAF))
    have hf : (preorder t.root).filter
        (fun x => ¬x.node_type = NodeType.LEAF) =
        (preorder t.root).filter
          (fun x => !decide (x.node_type = NodeType.LEAF)) := by
      congr 1
      funext x
      simp [decide_not]
    rw [hf]
    omega
  · unfold AttackTree.get_unmitigated_attacks
    congr 1
    funext n
    cases h : n.mitigations <;> simp [List.isEmpty]

theorem node_to_dict_fields (n : AttackNode) :
    (node_to_dict n).id = n.id ∧
    (node_to_dict n).name = n.name ∧
    (node_to_dict n).description = n.description ∧
    (node_to_dict n).type = n.node_type.value ∧
    (node_to_dict n).attributes.difficulty = n.attributes.difficulty.name ∧
    (node_to_dict n).attributes.cost = n.attributes.cost.name ∧
    (node_to_dict n).attributes.detection_risk =
      n.attributes.detection_risk.name ∧
    (node_to_dict n).attributes.time_hours = n.attributes.time_hours ∧
    (node_to_dict n).mitigations = n.mitigations ∧
    (node_to_dict n).file_refs = n.file_refs ∧
    (node_to_dict n).children = n.children.map node_to_dict := by
  cases n with
  | mk i nm d t a ch mit cv fr =>
    simp [node_to_dict, node_list_to_dict_eq_map, AttackNode.id,
      AttackNode.name, AttackNode.description, AttackNode.node_type,
      AttackNode.attributes, AttackNode.mitigations, AttackNode.file_refs,
      AttackNode.children]

theorem dict_preorder_map_aux (l : List AttackNode)
    (IH : ∀ c ∈ l, dict_preorder (node_to_dict c) =
      (preorder c).map node_to_dict) :
    dict_preorder_list (node_list_to_dict l) =
      (preorder_list l).map node_to_dict := by
  induction l with
  | nil => simp [node_list_to_dict, dict_preorder_list, preorder_list]
  | cons c rest ih =>
    simp only [node_list_to_dict, preorder_list]
    cases hd : node_to_dict c with
    | mk di dn dd dt da dm df dch =>
      rw [← hd]
      show dict_preorder_list (node_to_dict c :: node_list_to_dict rest) = _
      have : dict_preorder_list (node_to_dict c :: node_list_to_dict rest) =
          dict_preorder (node_to_dict c) ++
            dict_preorder_list (node_list_to_dict rest) := by
        rw [hd]
        simp [dict_preorder_list]
      rw [this, IH c (by simp), ih (fun x hx => IH x (by simp [hx]))]
      simp

theorem dict_preorder_map (n : AttackNode) :
    dict_preorder (node_to_dict n) = (preorder n).map node_to_dict := by
  induction n using AttackNode.induction_on with
  | h n ih =>
    cases n with
    | mk i nm d t a ch mit cv fr =>
      simp only [node_to_dict, dict_preorder, preorder, List.map_cons]
      congr 1
      exact dict_preorder_map_aux ch
        (fun c hc => ih c (by simpa [AttackNode.children] using hc))

/-- C6: re-walking the structure produced by `to_dict` reproduces the
same node count, the same id values in the same pre-order, and the same
parent/child ordering as a direct traversal, and every node is emitted
with its id, name, description, type, attributes (enum names, not
ordinals, plus time_hours), mitigations, file_refs and children. -/
theorem to_dict_round_trip_claim (t : AttackTree) :
    (dict_preorder t.to_dict.root).length = tree_size t.root ∧
    (dict_preorder t.to_dict.root).map NodeDict.id = tree_ids t.root ∧
    t.to_dict.root.children = t.root.children.map node_to_dict ∧
    ∀ n : AttackNode,
      (node_to_dict n).id = n.id ∧
      (node_to_dict n).name = n.name ∧
      (node_to_dict n).description = n.description ∧
      (node_to_dict n).type = n.node_type.value ∧
      (node_to_dict n).attributes.difficulty =
        n.attributes.difficulty.name ∧
      (node_to_dict n).attributes.cost = n.attributes.cost.name ∧
      (node_to_dict n).attributes.detection_risk =
        n.attributes.detection_risk.name ∧
      (node_to_dict n).attributes.time_hours = n.attributes.time_hours ∧
      (node_to_dict n).mitigations = n.mitigations ∧
      (node_to_dict n).file_refs = n.file_refs ∧
      (node_to_dict n).children = n.children.map node_to_dict := by
  have hw := dict_preorder_map t.root
  refine ⟨?_, ?_, ?_, node_to_dict_fields⟩
  · simp [AttackTree.to_dict, hw, tree_size]
  · simp only [AttackTree.to_dict, hw, tree_ids, List.map_map]
    congr 1
    funext x
    exact (node_to_dict_fields x).1
  · simp only [AttackTree.to_dict]
    exact (node_to_dict_fields t.root).2.2.2.2.2.2.2.2.2.2

theorem assign_id_lines (k : String) (st : ExporterState) :
    (assign_id k st).2.lines = st.lines := by
  unfold assign_id
  split <;> rfl

theorem assign_id_of_lookup_none (k : String) (st : ExporterState)
    (h : st.node_ids.lookup k = none) :
    assign_id k st = ("N" ++ toString st.node_count,
      { lines := st.lines, node_count := st.node_count + 1,
        node_ids := st.node_ids ++ [(k, "N" ++ toString st.node_count)] }) := by
  unfold assign_id
  rw [h]

theorem assign_id_of_lookup_some (k : String) (st : ExporterState)
    (v : String) (h : st.node_ids.lookup k = some v) :
    assign_id k st = (v, st) := by
  unfold assign_id
  rw [h]

theorem export_node_eq (node : AttackNode) (pid : Option String)
    (st : ExporterState) :
    export_node node pid st =
      ((assign_id node.id st).1,
        export_children node.children (assign_id node.id st).1
          { lines := (assign_id node.id st).2.lines ++
              (shape_lines node (assign_id node.id st).1 ++
               edge_lines node.node_type pid (assign_id node.id st).1),
            node_count := (assign_id node.id st).2.node_count,
            node_ids := (assign_id node.id st).2.node_ids }) := by
  cases node with
  | mk i nm d t a ch mit cv fr =>
    simp only [export_node, AttackNode.id, AttackNode.children,
      AttackNode.node_type]

theorem export_children_mono_aux (l : List AttackNode)
    (IH : ∀ c ∈ l, ∀ pid st, ∃ δ γ,
      (export_node c pid st).2.lines = st.lines ++ δ ∧
      (export_node c pid st).2.node_ids = st.node_ids ++ γ) :
    ∀ p st, ∃ δ γ, (export_children l p st).lines = st.lines ++ δ ∧
      (export_children l p st).node_ids = st.node_ids ++ γ := by
  induction l with
  | nil =>
    intro p st
    exact ⟨[], [], by simp [export_children], by simp [export_children]⟩
  | cons c rest ih =>
    intro p st
    obtain ⟨δ1, γ1, h1, h1b⟩ := IH c (by simp) (some p) st
    obtain ⟨δ2, γ2, h2, h2b⟩ := ih (fun x hx => IH x (by simp [hx])) p
      (export_node c (some p) st).2
    refine ⟨δ1 ++ δ2, γ1 ++ γ2, ?_, ?_⟩
    · simp only [export_children]
      rw [h2, h1, List.append_assoc]
    · simp only [export_children]
      rw [h2b, h1b, List.append_assoc]

theorem assign_id_node_ids_mono (k : String) (st : ExporterState) :
    ∃ γ, (assign_id k st).2.node_ids = st.node_ids ++ γ := by
  unfold assign_id
  split
  · exact ⟨[], by simp⟩
  · exact ⟨_, rfl⟩

theorem export_node_mono (n : AttackNode) :
    ∀ pid st, ∃ δ γ, (export_node n pid st).2.lines = st.lines ++ δ ∧
      (export_node n pid st).2.node_ids = st.node_ids ++ γ := by
  induction n using AttackNode.induction_on with
  | h n ih =>
    intro pid st
    have hch := export_children_mono_aux n.children ih
    rw [export_node_eq]
    obtain ⟨δ, γ, hδ, hγ⟩ := hch (assign_id n.id st).1
      { lines := (assign_id n.id st).2.lines ++
          (shape_lines n (assign_id n.id st).1 ++
           edge_lines n.node_type pid (assign_id n.id st).1),
        node_count := (assign_id n.id st).2.node_count,
        node_ids := (assign_id n.id st).2.node_ids }
    obtain ⟨γ0, hγ0⟩ := assign_id_node_ids_mono n.id st
    refine ⟨shape_lines n (assign_id n.id st).1 ++
        edge_lines n.node_type pid (assign_id n.id st).1 ++ δ,
      γ0 ++ γ, ?_, ?_⟩
    · rw [hδ]
      simp [assign_id_lines, List.append_assoc]
    · rw [hγ]
      simp [hγ0, List.append_assoc]

theorem export_children_mono (l : List AttackNode) :
    ∀ p st, ∃ δ γ, (export_children l p st).lines = st.lines ++ δ ∧
      (export_children l p st).node_ids = st.node_ids ++ γ :=
  export_children_mono_aux l (fun c _ => export_node_mono c)

theorem shape_lines_no_edge (node : AttackNode) (nid : String) :
    ∀ x ∈ shape_lines node nid, x.is_edge_line = false := by
  intro x hx
  unfold shape_lines at hx
  split at hx
  · simp at hx
    subst hx
    rfl
  · split at hx
    · simp at hx
      subst hx
      rfl
    · simp at hx
      rcases hx with hx | hx <;> subst hx <;> rfl

/-- C4 amended: the edge line emitted when a node is visited with a truthy
parent identifier runs from the parent's identifier to the node's, and it
uses the double-line connector exactly when the visited (child) node's own
type is AND - the parent's type plays no role. -/
theorem edge_connector_amended_claim (node : AttackNode) (pid : String)
    (st : ExporterState) (hpid : pid ≠ "") :
    ∃ decor rest,
      (export_node node (some pid) st).2.lines =
        st.lines ++ decor ++
          [MLine.edge pid
            (if node.node_type = NodeType.AND then "==>" else "-->")
            (export_node node (some pid) st).1] ++ rest ∧
      (∀ x ∈ decor, x.is_edge_line = false) := by
  rw [export_node_eq]
  obtain ⟨δ, γ, hδ, hγ⟩ := export_children_mono node.children
    (assign_id node.id st).1
    { lines := (assign_id node.id st).2.lines ++
        (shape_lines node (assign_id node.id st).1 ++
         edge_lines node.node_type (some pid) (assign_id node.id st).1),
      node_count := (assign_id node.id st).2.node_count,
      node_ids := (assign_id node.id st).2.node_ids }
  refine ⟨shape_lines node (assign_id node.id st).1, δ, ?_,
    shape_lines_no_edge node (assign_id node.id st).1⟩
  rw [hδ]
  have hedge : edge_lines node.node_type (some pid)
      (assign_id node.id st).1 =
      [MLine.edge pid
        (if node.node_type = NodeType.AND then "==>" else "-->")
        (assign_id node.id st).1] := by
    by_cases hA : node.node_type = NodeType.AND <;>
      simp [edge_lines, hpid, hA]
  rw [hedge]
  simp [assign_id_lines, List.append_assoc]

/-- C4 counterexample: in the export of an OR parent with an AND child,
the only edge line is the edge from the OR parent into the AND child and
it uses the double-line connector, contradicting the claim that edges
out of OR parents use the single-line connector. -/
theorem edge_connector_counterexample :
    ex_or_parent.node_type = NodeType.OR ∧
    ((export_node ex_or_parent none empty_state).2.lines.filter
      (fun l => l.is_edge_line)) = [MLine.edge "N0" "==>" "N1"] := by
  decide

theorem lookup_append (l1 l2 : List (String × String)) (k : String) :
    (l1 ++ l2).lookup k = (l1.lookup k).or (l2.lookup k) := by
  induction l1 with
  | nil => simp [List.lookup]
  | cons p rest ih =>
    cases p with
    | mk a b =>
      simp only [List.cons_append, List.lookup]
      by_cases h : k = a
      · simp [h]
      · have : (k == a) = false := by simpa using h
        simp [this, ih]

/-- C9: if two distinct nodes share the same `id`, the exporter's
identifier memo gives the second occurrence the identifier created for
the first instead of a fresh one: exporting `n2` (same `id`) after `n1`
returns exactly the identifier returned for `n1`. -/
theorem export_memo_collision_claim (n1 n2 : AttackNode)
    (pid1 pid2 : Option String) (st : ExporterState)
    (hid : n2.id = n1.id) (hfresh : st.node_ids.lookup n1.id = none) :
    (export_node n2 pid2 (export_node n1 pid1 st).2).1 =
      (export_node n1 pid1 st).1 := by
  have hassign := assign_id_of_lookup_none n1.id st hfresh
  have hmemo : (export_node n1 pid1 st).2.node_ids.lookup n1.id =
      some (export_node n1 pid1 st).1 := by
    rw [export_node_eq]
    obtain ⟨δ, γ, hδ, hγ⟩ := export_children_mono n1.children
      (assign_id n1.id st).1
      { lines := (assign_id n1.id st).2.lines ++
          (shape_lines n1 (assign_id n1.id st).1 ++
           edge_lines n1.node_type pid1 (assign_id n1.id st).1),
        node_count := (assign_id n1.id st).2.node_count,
        node_ids := (assign_id n1.id st).2.node_ids }
    rw [hγ]
    simp only [hassign]
    rw [List.append_assoc, lookup_append, hfresh]
    simp [List.lookup]
  rw [export_node_eq n2]
  rw [assign_id_of_lookup_some n2.id _ _ (by rw [hid] ; exact hmemo)]

/-- C8: for a LEAF node the export emits a style directive whose value is
the fixed mitigated fill/stroke combination exactly when the leaf's
mitigations list is non-empty, and otherwise the fill/stroke pair indexed
by its difficulty in the fixed 5-entry color table; the style line is
emitted in the leaf's visit, right before its shape line. -/
theorem leaf_style_claim (node : AttackNode) (pid : Option String)
    (st : ExporterState) (hleaf : node.node_type = NodeType.LEAF) :
    get_leaf_style node =
      (if node.mitigations ≠ [] then
        "fill:#d3f9d8,stroke:#51cf66,stroke-width:3px"
      else
        match node.attributes.difficulty with
        | Difficulty.TRIVIAL => "fill:#ff6b6b,stroke:#c92a2a,stroke-width:3px"
        | Difficulty.LOW => "fill:#ffa06b,stroke:#e67700,stroke-width:2px"
        | Difficulty.MEDIUM => "fill:#ffd93d,stroke:#fab005,stroke-width:2px"
        | Difficulty.HIGH => "fill:#6bcb77,stroke:#2f9e44,stroke-width:2px"
        | Difficulty.EXPERT =>
            "fill:#4d96ff,stroke:#1971c2,stroke-width:2px") ∧
    ∃ rest, (export_node node pid st).2.lines =
      st.lines ++
        [MLine.style (export_node node pid st).1 (get_leaf_style node),
         MLine.node (export_node node pid st).1 MShape.rect node.name] ++
        (edge_lines node.node_type pid (export_node node pid st).1 ++
          rest) := by
  constructor
  · unfold get_leaf_style
    cases hm : node.mitigations with
    | nil =>
      cases hd : node.attributes.difficulty <;>
        · simp only [hm, hd]
          rfl
    | cons a as =>
      simp only [hm]
      rfl
  · rw [export_node_eq]
    obtain ⟨δ, γ, hδ, hγ⟩ := export_children_mono node.children
      (assign_id node.id st).1
      { lines := (assign_id node.id st).2.lines ++
          (shape_lines node (assign_id node.id st).1 ++
           edge_lines node.node_type pid (assign_id node.id st).1),
        node_count := (assign_id node.id st).2.node_count,
        node_ids := (assign_id node.id st).2.node_ids }
    refine ⟨δ, ?_⟩
    rw [hδ]
    have hshape : shape_lines node (assign_id node.id st).1 =
        [MLine.style (assign_id node.id st).1 (get_leaf_style node),
         MLine.node (assign_id node.id st).1 MShape.rect node.name] := by
      unfold shape_lines
      rw [hleaf]
      simp
    rw [hshape]
    simp [assign_id_lines, List.append_assoc]

theorem node_line_count_append (a b : List MLine) :
    node_line_count (a ++ b) = node_line_count a + node_line_count b := by
  simp [node_line_count, List.filter_append]

theorem edge_line_count_append (a b : List MLine) :
    edge_line_count (a ++ b) = edge_line_count a + edge_line_count b := by
  simp [edge_line_count, List.filter_append]

theorem shape_lines_node_count (node : AttackNode) (nid : String) :
    node_line_count (shape_lines node nid) = 1 := by
  unfold shape_lines
  split
  · rfl
  · split <;> rfl

theorem shape_lines_edge_count (node : AttackNode) (nid : String) :
    edge_line_count (shape_lines node nid) = 0 := by
  unfold shape_lines
  split
  · rfl
  · split <;> rfl

theorem edge_lines_node_count (t : NodeType) (pid : Option String)
    (nid : String) : node_line_count (edge_lines t pid nid) = 0 := by
  unfold edge_lines
  rcases pid with _ | p
  · rfl
  · by_cases hp : p = "" <;> simp [hp, node_line_count, MLine.is_node_line]

theorem edge_lines_edge_count (t : NodeType) (pid : Option String)
    (nid : String) :
    edge_line_count (edge_lines t pid nid) =
      if pid_truthy pid then 1 else 0 := by
  unfold edge_lines pid_truthy
  rcases pid with _ | p
  · rfl
  · by_cases hp : p = "" <;>
      simp [hp, edge_line_count, MLine.is_edge_line]

theorem lookup_eq_none_iff (l : List (String × String)) (k : String) :
    l.lookup k = none ↔ k ∉ l.map Prod.fst := by
  induction l with
  | nil => simp [List.lookup]
  | cons p rest ih =>
    cases p with
    | mk a b =>
      by_cases h : k = a
      · subst h
        simp [List.lookup]
      · have hb : (k == a) = false := by simpa using h
        simp [List.lookup, hb, ih, h]

theorem fresh_id_ne_empty (s : String) : ("N" ++ s) ≠ "" := by
  intro h
  have := congrArg String.length h
  simp [String.length_append] at this
  exact absurd this.1 (by decide)

theorem preorder_length_pos (n : AttackNode) : 1 ≤ (preorder n).length := by
  rw [preorder_eq]
  simp

theorem tree_ids_eq (n : AttackNode) :
    tree_ids n = n.id :: (preorder_list n.children).map AttackNode.id := by
  rw [tree_ids, preorder_eq]
  simp

theorem tree_size_eq (n : AttackNode) :
    tree_size n = 1 + (preorder_list n.children).length := by
  rw [tree_size, preorder_eq]
  simp [Nat.add_comm]

theorem export_counts_aux (l : List AttackNode)
    (IH : ∀ c ∈ l, ∀ pid st,
      (tree_ids c).Nodup →
      (∀ a ∈ tree_ids c, st.node_ids.lookup a = none) →
      ((export_node c pid st).2.node_ids.map Prod.fst =
        st.node_ids.map Prod.fst ++ tree_ids c) ∧
      ∃ δ, (export_node c pid st).2.lines = st.lines ++ δ ∧
        node_line_count δ = tree_size c ∧
        edge_line_count δ = tree_size c - 1 +
          (if pid_truthy pid then 1 else 0)) :
    ∀ p st, p ≠ "" →
      (((preorder_list l).map AttackNode.id).Nodup) →
      (∀ a ∈ (preorder_list l).map AttackNode.id,
        st.node_ids.lookup a = none) →
      ((export_children l p st).node_ids.map Prod.fst =
        st.node_ids.map Prod.fst ++ (preorder_list l).map AttackNode.id) ∧
      ∃ δ, (export_children l p st).lines = st.lines ++ δ ∧
        node_line_count δ = (preorder_list l).length ∧
        edge_line_count δ = (preorder_list l).length := by
  induction l with
  | nil =>
    intro p st hp hnd hfr
    refine ⟨by simp [export_children, preorder_list], [], ?_, ?_, ?_⟩ <;>
      simp [export_children, preorder_list, node_line_count,
        edge_line_count]
  | cons c rest ih =>
    intro p st hp hnd hfr
    have hsplit : (preorder_list (c :: rest)).map AttackNode.id =
        tree_ids c ++ (preorder_list rest).map AttackNode.id := by
      simp [preorder_list, tree_ids]
    rw [hsplit] at hnd hfr
    have hnd1 : (tree_ids c).Nodup := hnd.of_append_left
    have hnd2 : ((preorder_list rest).map AttackNode.id).Nodup :=
      hnd.of_append_right
    have hdisj := List.disjoint_of_nodup_append hnd
    obtain ⟨hkeys1, δ1, hl1, hn1, he1⟩ := IH c (by simp) (some p) st hnd1
      (fun a ha => hfr a (by simp [ha]))
    have hptruthy : (if pid_truthy (some p) then 1 else 0) = 1 := by
      simp [pid_truthy, hp]
    rw [hptruthy] at he1
    have hszc : 1 ≤ tree_size c := preorder_length_pos c
    have hfr2 : ∀ a ∈ (preorder_list rest).map AttackNode.id,
        (export_node c (some p) st).2.node_ids.lookup a = none := by
      intro a ha
      rw [lookup_eq_none_iff, hkeys1]
      intro hmem
      rcases List.mem_append.mp hmem with hmem | hmem
      · have := hfr a (by simp [ha])
        rw [lookup_eq_none_iff] at this
        exact this hmem
      · exact hdisj hmem ha
    obtain ⟨hkeys2, δ2, hl2, hn2, he2⟩ := ih
      (fun x hx => IH x (by simp [hx])) p
      (export_node c (some p) st).2 hp hnd2 hfr2
    refine ⟨?_, δ1 ++ δ2, ?_, ?_, ?_⟩
    · simp only [export_children]
      rw [hkeys2, hkeys1, hsplit, List.append_assoc]
    · simp only [export_children]
      rw [hl2, hl1, List.append_assoc]
    · rw [node_line_count_append, hn1, hn2]
      simp [preorder_list, tree_size]
    · rw [edge_line_count_append, he1, he2]
      have : (preorder_list (c :: rest)).length =
          tree_size c + (preorder_list rest).length := by
        simp [preorder_list, tree_size]
      omega

theorem export_counts_main (n : AttackNode) :
    ∀ pid st,
      (tree_ids n).Nodup →
      (∀ a ∈ tree_ids n, st.node_ids.lookup a = none) →
      ((export_node n pid st).2.node_ids.map Prod.fst =
        st.node_ids.map Prod.fst ++ tree_ids n) ∧
      ∃ δ, (export_node n pid st).2.lines = st.lines ++ δ ∧
        node_line_count δ = tree_size n ∧
        edge_line_count δ = tree_size n - 1 +
          (if pid_truthy pid then 1 else 0) := by
  induction n using AttackNode.induction_on with
  | h n ihc =>
    intro pid st hnd hfr
    have hfid : st.node_ids.lookup n.id = none :=
      hfr n.id (by rw [tree_ids_eq] ; simp)
    have hassign := assign_id_of_lookup_none n.id st hfid
    have hndch : ((preorder_list n.children).map AttackNode.id).Nodup := by
      rw [tree_ids_eq] at hnd
      exact hnd.of_cons
    have hnotmem : n.id ∉ (preorder_list n.children).map AttackNode.id := by
      rw [tree_ids_eq] at hnd
      exact (List.nodup_cons.mp hnd).1
    have hfrch : ∀ a ∈ (preorder_list n.children).map AttackNode.id,
        (({ lines := st.lines ++
              (shape_lines n ("N" ++ toString st.node_count) ++
               edge_lines n.node_type pid ("N" ++ toString st.node_count)),
            node_count := st.node_count + 1,
            node_ids := st.node_ids ++
              [(n.id, "N" ++ toString st.node_count)] } :
          ExporterState)).node_ids.lookup a = none := by
      intro a ha
      rw [lookup_eq_none_iff]
      simp only [List.map_append]
      intro hmem
      rcases List.mem_append.mp hmem with hmem | hmem
      · have := hfr a (by rw [tree_ids_eq] ; simp [ha])
        rw [lookup_eq_none_iff] at this
        exact this hmem
      · simp at hmem
        subst hmem
        exact hnotmem ha
    obtain ⟨hkeysc, δc, hlc, hnc, hec⟩ := export_counts_aux n.children ihc
      ("N" ++ toString st.node_count)
      { lines := st.lines ++
          (shape_lines n ("N" ++ toString st.node_count) ++
           edge_lines n.node_type pid ("N" ++ toString st.node_count)),
        node_count := st.node_count + 1,
        node_ids := st.node_ids ++ [(n.id, "N" ++ toString st.node_count)] }
      (fresh_id_ne_empty _) hndch hfrch
    rw [export_node_eq]
    simp only [hassign] at hkeysc hlc ⊢
    constructor
    · rw [hkeysc]
      simp only [List.map_append, List.map_cons, List.map_nil, tree_ids_eq]
      simp [List.append_assoc]
    · refine ⟨shape_lines n ("N" ++ toString st.node_count) ++
        edge_lines n.node_type pid ("N" ++ toString st.node_count) ++ δc,
        ?_, ?_, ?_⟩
      · rw [hlc]
        simp [List.append_assoc]
      · rw [node_line_count_append, node_line_count_append,
          shape_lines_node_count, edge_lines_node_count, hnc, tree_size_eq]
      · rw [edge_line_count_append, edge_line_count_append,
          shape_lines_edge_count, edge_lines_edge_count, hec]
        have := tree_size_eq n
        by_cases hb : pid_truthy pid <;> simp [hb] <;> omega

/-- C7: for a tree with unique node ids, the Mermaid export emits exactly
one node-declaration line per distinct id (node count = distinct id
count) and exactly one edge line per non-root node (node count minus
one). -/
theorem export_counts_claim (t : AttackTree)
    (hnd : (tree_ids t.root).Nodup) :
    node_line_count (export_diagram t) = tree_size t.root ∧
    node_line_count (export_diagram t) = (tree_ids t.root).dedup.length ∧
    edge_line_count (export_diagram t) = tree_size t.root - 1 := by
  obtain ⟨hkeys, δ, hδ, hn, he⟩ := export_counts_main t.root none
    { lines := [MLine.header "flowchart TD"], node_count := 0,
      node_ids := [] }
    hnd (fun a ha => by simp [List.lookup])
  have hud : export_diagram t = ([MLine.header "flowchart TD"] ++ δ) ++
      [MLine.classDef "trivial fill:#ff6b6b,stroke:#c92a2a,stroke-width:3px",
       MLine.classDef "low fill:#ffa06b,stroke:#e67700,stroke-width:2px",
       MLine.classDef "medium fill:#ffd93d,stroke:#fab005,stroke-width:2px",
       MLine.classDef "high fill:#6bcb77,stroke:#2f9e44,stroke-width:2px",
       MLine.classDef "expert fill:#4d96ff,stroke:#1971c2,stroke-width:2px"] := by
    unfold export_diagram add_legend
    rw [hδ]
  have hdl : (tree_ids t.root).dedup.length = tree_size t.root := by
    rw [List.dedup_eq_self.mpr hnd, tree_ids, tree_size, List.length_map]
  have hn2 : node_line_count (export_diagram t) = tree_size t.root := by
    rw [hud, node_line_count_append, node_line_count_append, hn]
    simp [node_line_count, List.filter, MLine.is_node_line]
  refine ⟨hn2, by rw [hn2, hdl], ?_⟩
  rw [hud, edge_line_count_append, edge_line_count_append, he]
  simp [pid_truthy, edge_line_count, List.filter, MLine.is_edge_line]

/-- Witness for C1 at the spec example: OR root over a TRIVIAL leaf and
a HIGH leaf, minimizing difficulty. -/
theorem find_path_or_claim_witness :
    ex_or_root.node_type = NodeType.OR ∧ ex_or_root.children ≠ [] ∧
    ∃ i, ∃ hi : i < ex_or_root.children.length,
      find_path ex_or_root "difficulty" =
        ex_or_root :: find_path ex_or_root.children[i] "difficulty" ∧
      path_score (find_path ex_or_root "difficulty") "difficulty" =
        path_score (find_path ex_or_root.children[i] "difficulty")
          "difficulty" ∧
      (∀ j, ∀ hj : j < ex_or_root.children.length,
        path_score (find_path ex_or_root "difficulty") "difficulty" ≤
          path_score (find_path ex_or_root.children[j] "difficulty")
            "difficulty") ∧
      (∀ j, j < i → ∀ hj : j < ex_or_root.children.length,
        path_score (find_path ex_or_root.children[i] "difficulty")
          "difficulty" <
          path_score (find_path ex_or_root.children[j] "difficulty")
            "difficulty") :=
  ⟨rfl, by simp [ex_or_root, AttackNode.children],
    find_path_or_claim ex_or_root "difficulty" rfl
      (by simp [ex_or_root, AttackNode.children])⟩

/-- Witness for C2 at the spec example: AND root over a LOW-cost leaf and
a MEDIUM-cost leaf, minimizing cost. -/
theorem find_path_and_claim_witness :
    ex_and_root.node_type = NodeType.AND ∧ ex_and_root.children ≠ [] ∧
    find_path ex_and_root "cost" =
      ex_and_root :: (ex_and_root.children.map
        (fun c => find_path c "cost")).flatten ∧
    path_score (find_path ex_and_root "cost") "cost" =
      (ex_and_root.children.map
        (fun c => path_score (find_path c "cost") "cost")).sum := by
  have h := find_path_and_claim ex_and_root "cost" rfl
    (by simp [ex_and_root, AttackNode.children])
  exact ⟨rfl, by simp [ex_and_root, AttackNode.children], h.1, h.2⟩

/-- Witness for C3 at a concrete leaf. -/
theorem find_path_leaf_claim_witness :
    (ex_leaf_a.node_type = NodeType.LEAF ∨ ex_leaf_a.children = []) ∧
    find_path ex_leaf_a "difficulty" = [ex_leaf_a] ∧
    (ex_leaf_a.node_type = NodeType.LEAF →
      path_score [ex_leaf_a] "difficulty" =
        ex_leaf_a.attributes.difficulty.value ∧
      path_score [ex_leaf_a] "cost" = ex_leaf_a.attributes.cost.value ∧
      path_score [ex_leaf_a] "detection" =
        ex_leaf_a.attributes.detection_risk.value) ∧
    (ex_leaf_a.node_type ≠ NodeType.LEAF →
      path_score [ex_leaf_a] "difficulty" = 0) := by
  have h := find_path_leaf_claim ex_leaf_a "difficulty" (Or.inl rfl)
  exact ⟨Or.inl rfl, h.1, h.2.1, h.2.2⟩

/-- Witness for C10 at the OR example root. -/
theorem find_path_or_no_fallback_witness :
    ex_or_root.node_type = NodeType.OR ∧ ex_or_root.children ≠ [] ∧
    ∃ bp score,
      (child_paths ex_or_root.children "cost").foldl (or_step "cost")
        none = some (bp, score) ∧
      find_path ex_or_root "cost" = ex_or_root :: bp ∧ bp ≠ [] ∧
      2 ≤ (find_path ex_or_root "cost").length :=
  ⟨rfl, by simp [ex_or_root, AttackNode.children],
    find_path_or_no_fallback ex_or_root "cost" rfl
      (by simp [ex_or_root, AttackNode.children])⟩

/-- Witness for the amended C4 at the AND child exported under the
identifier of its OR parent. -/
theorem edge_connector_amended_claim_witness :
    ("N0" : String) ≠ "" ∧
    ∃ decor rest,
      (export_node ex_and_child (some "N0") empty_state).2.lines =
        empty_state.lines ++ decor ++
          [MLine.edge "N0"
            (if ex_and_child.node_type = NodeType.AND then "==>" else "-->")
            (export_node ex_and_child (some "N0") empty_state).1] ++
          rest ∧
      (∀ x ∈ decor, x.is_edge_line = false) :=
  ⟨by decide,
    edge_connector_amended_claim ex_and_child "N0" empty_state (by decide)⟩

/-- Witness for C7 at the two-leaf OR example tree (ids R, A, B). -/
theorem export_counts_claim_witness :
    (tree_ids ex_or_tree.root).Nodup ∧
    node_line_count (export_diagram ex_or_tree) = tree_size ex_or_tree.root ∧
    node_line_count (export_diagram ex_or_tree) =
      (tree_ids ex_or_tree.root).dedup.length ∧
    edge_line_count (export_diagram ex_or_tree) =
      tree_size ex_or_tree.root - 1 := by
  have h := export_counts_claim ex_or_tree (by decide)
  exact ⟨by decide, h.1, h.2.1, h.2.2⟩

/-- Witness for C8 at the mitigated HIGH-difficulty leaf. -/
theorem leaf_style_claim_witness :
    ex_leaf_b.node_type = NodeType.LEAF ∧
    get_leaf_style ex_leaf_b =
      (if ex_leaf_b.mitigations ≠ [] then
        "fill:#d3f9d8,stroke:#51cf66,stroke-width:3px"
      else
        match ex_leaf_b.attributes.difficulty with
        | Difficulty.TRIVIAL => "fill:#ff6b6b,stroke:#c92a2a,stroke-width:3px"
        | Difficulty.LOW => "fill:#ffa06b,stroke:#e67700,stroke-width:2px"
        | Difficulty.MEDIUM => "fill:#ffd93d,stroke:#fab005,stroke-width:2px"
        | Difficulty.HIGH => "fill:#6bcb77,stroke:#2f9e44,stroke-width:2px"
        | Difficulty.EXPERT =>
            "fill:#4d96ff,stroke:#1971c2,stroke-width:2px") ∧
    ∃ rest, (export_node ex_leaf_b none empty_state).2.lines =
      empty_state.lines ++
        [MLine.style (export_node ex_leaf_b none empty_state).1
          (get_leaf_style ex_leaf_b),
         MLine.node (export_node ex_leaf_b none empty_state).1 MShape.rect
           ex_leaf_b.name] ++
        (edge_lines ex_leaf_b.node_type none
          (export_node ex_leaf_b none empty_state).1 ++ rest) := by
  have h := leaf_style_claim ex_leaf_b none empty_state rfl
  exact ⟨rfl, h.1, h.2⟩

/-- Witness for C9: a second leaf with the duplicate id `A` exported after
the first receives the identifier minted for the first. -/
theorem export_memo_collision_claim_witness :
    ex_dup_leaf.id = ex_leaf_a.id ∧
    empty_state.node_ids.lookup ex_leaf_a.id = none ∧
    (export_node ex_dup_leaf none
        (export_node ex_leaf_a none empty_state).2).1 =
      (export_node ex_leaf_a none empty_state).1 :=
  ⟨rfl, rfl,
    export_memo_collision_claim ex_leaf_a ex_dup_leaf none none empty_state
      rfl rfl⟩

end AttackTrees
